import Mathlib

/-!
Verification of the RAVE video-editing pipeline
(`examples/community/pipeline_rave.py`).

The development shallowly embeds the pure computational core of the
pipeline: the classifier-free-guidance combiner, the controlnet
keep-weight schedule, the timestep selection (`get_timesteps`), the
frame-shuffling bookkeeping of `_shuffle` / `_shuffle_helper`, the
grid packing/unpacking (`image_grid` / `image_split` /
`_convert_frames_to_grids` / `_grids_to_frames`), the denoising loop
`_denoise_loop` (with external collaborators — unet, controlnet,
scheduler — as abstract function parameters), and the input validation
and the call-ordering of `__call__`.

Numeric scalars are embedded as rationals (`ℚ`); Python float
arithmetic is treated as exact arithmetic, which is faithful for the
structural/ordering properties proved here.  Tensors are embedded as
lists over abstract element types; pixel images as dimensioned pixel
functions.

The file is organised as definitions first, theorems second.
-/

namespace Rave

/-! ## Definitions -/

/-! ### Classifier-free guidance (lines 916-921 and 1171-1174) -/

/-- `do_classifier_free_guidance` property of the pipeline:
`self._guidance_scale > 1`. -/
def do_classifier_free_guidance (guidance_scale : ℚ) : Bool :=
  decide (1 < guidance_scale)

/-- The guidance combination of `_denoise_loop` (line 1174):
`noise_pred_uncond + guidance_scale * (noise_pred_text - noise_pred_uncond)`,
applied elementwise over tensors; `L` is the scalar/cell type. -/
def guidanceCombine {L : Type} [Field L] (u c : L) (g : ℚ) : L :=
  u + (g : L) * (c - u)

/-! ### Controlnet keep weights (lines 1584-1599) -/

/-- One entry of `controlnet_keep` built in `__call__` step 7.2 for the
generation loop:
`1.0 - float(i / len(timesteps) < s or (i + 1) / len(timesteps) > e)`. -/
def controlnet_keep_entry (i total : ℕ) (s e : ℚ) : ℚ :=
  1 - (if (i : ℚ) / (total : ℚ) < s ∨ ((i : ℚ) + 1) / (total : ℚ) > e then 1 else 0)

/-- One entry of `inversion_controlnet_keep` built in `__call__` step 7.3
for the inversion loop (lines 1593-1599).  Note that the source divides
`i` by `len(timesteps)` — the *generation* loop's timestep count — while
dividing `i + 1` by `len(inversion_timesteps)`:
`1.0 - float(i / len(timesteps) < s or (i + 1) / len(inversion_timesteps) > e)`. -/
def inversion_controlnet_keep_entry (i lenTimesteps lenInversionTimesteps : ℕ)
    (s e : ℚ) : ℚ :=
  1 - (if (i : ℚ) / (lenTimesteps : ℚ) < s ∨
          ((i : ℚ) + 1) / (lenInversionTimesteps : ℚ) > e then 1 else 0)

/-! ### Timestep selection and the inversion strength override
(lines 786-793, 1373, 1400-1402) -/

/-- Python `int()` applied to a rational: truncation toward zero. -/
def pyInt (x : ℚ) : ℤ :=
  if 0 ≤ x then ⌊x⌋ else -⌊-x⌋

/-- `get_timesteps` (lines 786-793): selects the tail of the scheduler's
timestep list according to `strength`.  `timesteps` stands for
`self.scheduler.timesteps`; the returned pair is
`(timesteps[t_start * order :], num_inference_steps - t_start)`. -/
def get_timesteps {T : Type} (timesteps : List T) (num_inference_steps : ℕ)
    (strength : ℚ) (order : ℕ) : List T × ℕ :=
  let init_timestep : ℕ :=
    min (pyInt ((num_inference_steps : ℚ) * strength)).toNat num_inference_steps
  let t_start : ℕ := num_inference_steps - init_timestep
  (timesteps.drop (t_start * order), num_inference_steps - t_start)

/-- `is_inversion_mode` (line 1373):
`inversion_prompt is not None or inversion_prompt_embeds is not None`. -/
def is_inversion_mode {P Q : Type} (inversion_prompt : Option P)
    (inversion_prompt_embeds : Option Q) : Bool :=
  inversion_prompt.isSome || inversion_prompt_embeds.isSome

/-- The strength actually used by `__call__` (lines 1400-1402): the
user-supplied `strength` is replaced by `1` whenever inversion mode is
active. -/
def effective_strength {P Q : Type} (strength : ℚ) (inversion_prompt : Option P)
    (inversion_prompt_embeds : Option Q) : ℚ :=
  if is_inversion_mode inversion_prompt inversion_prompt_embeds then 1 else strength

/-! ### Frame shuffling (`_shuffle_helper` / `_shuffle`, lines 931-1008)

`_shuffle_helper` un-tiles the batch of grids into the flat sequence of
per-frame slices, executes the assignment loop

    for i in range(original_num_frames):
        grid_frames[rand_indices[i]] = grid_frames_[indices[i]]

(reading from the clone `grid_frames_`), and re-tiles.  We embed the
operation at the flattened-frame level: `frames` is the flat sequence of
per-frame slices (the un-tile/re-tile round trip is the subject of the
grid-packing section below).  `d` is the `getD` default element. -/

/-- The assignment loop of `_shuffle_helper` (lines 953-956): starting
from the current frame list, slot `perm[i]` receives the slice that the
clone holds at slot `indices[i]`, for `i < len(perm)`. -/
def shuffleFrames {α : Type} (frames : List α) (indices perm : List ℕ) (d : α) :
    List α :=
  (List.range perm.length).foldl
    (fun cur i => cur.set (perm.getD i 0) (frames.getD (indices.getD i 0) d)) frames

/-- `rand_indices` drawn by `torch.randperm(original_num_frames)` is a
permutation of `[0, n)`: length `n`, no duplicates, entries below `n`. -/
def IsPermList (p : List ℕ) (n : ℕ) : Prop :=
  p.length = n ∧ p.Nodup ∧ ∀ x ∈ p, x < n

instance (p : List ℕ) (n : ℕ) : Decidable (IsPermList p n) := by
  unfold IsPermList; infer_instance

/-- The slot-order dynamics of the main denoising loop (lines 1107-1118
together with line 1008): at each step `_shuffle` replaces the frame
list by the assignment-loop result and replaces `indices` by the drawn
`rand_indices`. -/
def runShuffleSteps {α : Type} (frames : List α) (perms : List (List ℕ))
    (ind : List ℕ) (d : α) : List α × List ℕ :=
  perms.foldl (fun st p => (shuffleFrames st.1 st.2 p d, p)) (frames, ind)

/-- The final restoration of `__call__` (lines 1741-1742):
`shuffled_video = shuffled_video[:num_video_frames]` followed by
`video = [shuffled_video[indices[i]] for i in range(num_video_frames)]`. -/
def restoreOrder {α : Type} (shuffled : List α) (ind : List ℕ) (n : ℕ) (d : α) :
    List α :=
  (List.range n).map fun i => (shuffled.take n).getD (ind.getD i 0) d

/-- The loop invariant of the shuffling machinery: `indices i` is the
slot currently holding original frame `i`, i.e. reading the current
frame list at slot `indices i` returns the original frame `i`. -/
def ShuffleInv {α : Type} (n : ℕ) (video : List α) (d : α)
    (st : List α × List ℕ) : Prop :=
  st.1.length = video.length ∧ st.2.length = n ∧ (∀ x ∈ st.2, x < n) ∧
    ∀ i, i < n → st.1.getD (st.2.getD i 0) d = video.getD i d

/-! ### The denoising loop `_denoise_loop` (lines 1079-1196)

The external collaborators (scheduler, unet, controlnet, the random
generator) are abstract function parameters, collected together with the
per-call parameters in `LoopCfg`.  The latent batch is the flat list of
per-frame latent slices; the control tensor(s) likewise.  `dL`/`dC` are
`getD` defaults.  The deprecated `callback` and `callback_on_step_end`
arguments are modelled in their default `None` state. -/

structure LoopCfg (L C E R T G : Type) where
  scaleModelInput : List L → T → List L
  controlnet : List L → T → E → List C → ℚ → Bool → R
  zeroPadResiduals : R → R
  unet : List L → T → E → R → List L
  schedStep : List L → T → List L → List L
  randperm : ℕ → G → List ℕ × G
  chunk2Embeds : E → E
  guidance_scale : ℚ
  use_shuffling : Bool
  num_frames : ℕ
  guess_mode : Bool
  prompt_embeds : E
  controlnet_keep : List ℚ
  controlnet_conditioning_scale : ℚ
  timesteps : List T
  dL : L
  dC : C

structure LoopState (L C G : Type) where
  latents : List L
  control : List C
  indices : List ℕ
  gen : G

/-- `_shuffle` (lines 976-1008) as invoked by the loop: draw
`rand_indices = torch.randperm(num_frames, generator)`, run the
assignment loop on the latents and on the control video (the helper
re-tiles only the first `total_frames` slices, truncating a batch that
was doubled for guidance), re-double the control for classifier-free
guidance outside guess mode, and return the drawn permutation as the
new `indices`. -/
def shuffleInLoop {L C E R T G : Type} (cfg : LoopCfg L C E R T G)
    (s : LoopState L C G) : LoopState L C G × List ℕ :=
  let pg := cfg.randperm cfg.num_frames s.gen
  let lat := shuffleFrames s.latents s.indices pg.1 cfg.dL
  let ctl := (shuffleFrames s.control s.indices pg.1 cfg.dC).take s.latents.length
  let ctl :=
    if do_classifier_free_guidance cfg.guidance_scale && !cfg.guess_mode then
      ctl ++ ctl
    else ctl
  (⟨lat, ctl, pg.1, pg.2⟩, pg.1)

/-- One iteration of `_denoise_loop` (lines 1107-1194): optional
shuffle, batch doubling under classifier-free guidance, model-input
scaling, controlnet inference (guess-mode handling included), noise
prediction, guidance combination, scheduler step.  Returns the new
state and the permutation drawn at this step, if any. -/
def denoiseStep {L C E R T G : Type} [Field L] (cfg : LoopCfg L C E R T G)
    (i : ℕ) (t : T) (s0 : LoopState L C G) :
    LoopState L C G × Option (List ℕ) :=
  let sp : LoopState L C G × Option (List ℕ) :=
    if cfg.use_shuffling then
      ((shuffleInLoop cfg s0).1, some (shuffleInLoop cfg s0).2)
    else (s0, none)
  let s := sp.1
  let cfgOn := do_classifier_free_guidance cfg.guidance_scale
  let latent_model_input := if cfgOn then s.latents ++ s.latents else s.latents
  let latent_model_input := cfg.scaleModelInput latent_model_input t
  let cmi_cpe : List L × E :=
    if cfg.guess_mode && cfgOn then
      (cfg.scaleModelInput s.latents t, cfg.chunk2Embeds cfg.prompt_embeds)
    else (latent_model_input, cfg.prompt_embeds)
  let cond_scale := cfg.controlnet_conditioning_scale * cfg.controlnet_keep.getD i 1
  let res := cfg.controlnet cmi_cpe.1 t cmi_cpe.2 s.control cond_scale cfg.guess_mode
  let res := if cfg.guess_mode && cfgOn then cfg.zeroPadResiduals res else res
  let noise_pred := cfg.unet latent_model_input t cfg.prompt_embeds res
  let noise_pred :=
    if cfgOn then
      List.zipWith (fun a b => guidanceCombine a b cfg.guidance_scale)
        (noise_pred.take ((noise_pred.length + 1) / 2))
        (noise_pred.drop ((noise_pred.length + 1) / 2))
    else noise_pred
  (⟨cfg.schedStep noise_pred t s.latents, s.control, s.indices, s.gen⟩, sp.2)

/-- The loop accumulator of `runLoop`: current state, the latent
trajectory (latents after each completed step), and the permutations
drawn so far. -/
def loopStep {L C E R T G : Type} [Field L] (cfg : LoopCfg L C E R T G)
    (acc : LoopState L C G × List (List L) × List (List ℕ)) (it : ℕ × T) :
    LoopState L C G × List (List L) × List (List ℕ) :=
  let r := denoiseStep cfg it.1 it.2 acc.1
  (r.1, acc.2.1 ++ [r.1.latents], acc.2.2 ++ r.2.toList)

/-- `_denoise_loop` (lines 1104-1196): `for i, t in enumerate(timesteps)`
over `denoiseStep`, recording the latent trajectory and the drawn
permutations. -/
def runLoop {L C E R T G : Type} [Field L] (cfg : LoopCfg L C E R T G)
    (s0 : LoopState L C G) :
    LoopState L C G × List (List L) × List (List ℕ) :=
  cfg.timesteps.enum.foldl (loopStep cfg) (s0, [], [])

/-- A concrete loop configuration used by the witnesses: rational
latents, trivial embeddings and residuals, natural-number timesteps, a
counter random generator whose draw rotates the identity permutation. -/
def sampleLoopCfg : LoopCfg ℚ ℚ Unit Unit ℕ ℕ where
  scaleModelInput := fun l _ => l
  controlnet := fun _ _ _ _ _ _ => ()
  zeroPadResiduals := fun r => r
  unet := fun l _ _ _ => l.map (fun x => x / 2)
  schedStep := fun np _ lat => List.zipWith (fun a b => b - a) np lat
  randperm := fun n g => ((List.range n).rotate (g + 1), g + 1)
  chunk2Embeds := fun e => e
  guidance_scale := 1
  use_shuffling := true
  num_frames := 4
  guess_mode := false
  prompt_embeds := ()
  controlnet_keep := [1, 1, 1]
  controlnet_conditioning_scale := 4/5
  timesteps := [981, 641, 301]
  dL := 0
  dC := 0

/-- A concrete loop state for the witnesses. -/
def sampleLoopState : LoopState ℚ ℚ ℕ where
  latents := [10, 20, 30, 40]
  control := [1, 2, 3, 4]
  indices := List.range 4
  gen := 0

/-- `sampleLoopCfg` with shuffling turned off (for the C8 witness). -/
def sampleLoopCfgNoShuffle : LoopCfg ℚ ℚ Unit Unit ℕ ℕ :=
  { sampleLoopCfg with use_shuffling := false }

/-! ### Images and grid packing (`image_grid` / `image_split`,
lines 105-134, and `_convert_frames_to_grids` / `_grids_to_frames`,
lines 893-906)

An image is a pair of pixel dimensions with a pixel function; reads
outside the dimensions yield `0` (black), matching PIL's behaviour for
`crop` boxes beyond the image and the black background of
`Image.new("RGB", ...)`.  Raising code paths are embedded in the
`Except` monad. -/

structure Image where
  w : ℕ
  h : ℕ
  pix : ℕ → ℕ → ℕ

/-- Reading a pixel, `0` (black) outside the image. -/
def Image.getPix (img : Image) (x y : ℕ) : ℕ :=
  if x < img.w ∧ y < img.h then img.pix x y else 0

/-- `PIL.Image.new("RGB", (w, h))`: an all-black image. -/
def imageNew (w h : ℕ) : Image :=
  ⟨w, h, fun _ _ => 0⟩

/-- `base.paste(src, box=(x0, y0))`. -/
def Image.paste (base src : Image) (x0 y0 : ℕ) : Image :=
  { base with
    pix := fun x y =>
      if x0 ≤ x ∧ x < x0 + src.w ∧ y0 ≤ y ∧ y < y0 + src.h then
        src.getPix (x - x0) (y - y0)
      else base.pix x y }

/-- `img.crop((left, upper, right, lower))`. -/
def Image.crop (img : Image) (left upper right lower : ℕ) : Image :=
  ⟨right - left, lower - upper, fun x y =>
    if x < right - left ∧ y < lower - upper then
      img.getPix (left + x) (upper + y)
    else 0⟩

/-- `frame.resize((w, h))` (line 1378); the resampling kernel is
abstracted (nearest neighbour) — only the output dimensions matter for
the claims. -/
def Image.resize (img : Image) (w h : ℕ) : Image :=
  ⟨w, h, fun x y => img.getPix (x * img.w / w) (y * img.h / h)⟩

/-- Extensional image equality: equal dimensions and equal pixels
within them (PIL image equality). -/
def Image.eqv (a b : Image) : Prop :=
  a.w = b.w ∧ a.h = b.h ∧ ∀ x, x < a.w → ∀ y, y < a.h → a.pix x y = b.pix x y

/-- The pixel region that the paste of image number `m` covers inside
the grid, for cell size `w0 × h0` and `cols` columns
(`box=(m % cols * w0, m // cols * h0)`). -/
def inTile (cols w0 h0 m X Y : ℕ) : Prop :=
  m % cols * w0 ≤ X ∧ X < m % cols * w0 + w0 ∧
    m / cols * h0 ≤ Y ∧ Y < m / cols * h0 + h0

/-- The paste loop of `image_grid` (lines 110-111):
`for i, image in enumerate(images): grid.paste(image, box=(i % cols * w, i // cols * h))`. -/
def pasteFold (w0 h0 cols : ℕ) (base : Image) (pairs : List (ℕ × Image)) : Image :=
  pairs.foldl (fun g p => g.paste p.2 (p.1 % cols * w0) (p.1 / cols * h0)) base

/-- `image_grid` (lines 105-112): raises when more images than grid
cells are passed (and, like the source, indexes `images[0]` for the
cell size). -/
def image_grid (images : List Image) (rows cols : ℕ) : Except String Image :=
  if rows * cols < images.length then
    .error "Number of images exceeds grid size."
  else
    match images with
    | [] => .error "list index out of range"
    | img0 :: _ =>
      .ok (pasteFold img0.w img0.h cols
        (imageNew (cols * img0.w) (rows * img0.h)) images.enum)

/-- `image_split` (lines 115-134): raises when the image dimensions are
not divisible by the grid shape, otherwise crops the `rows × cols`
tiles in row-major order. -/
def image_split (img : Image) (rows cols : ℕ) : Except String (List Image) :=
  if img.w % cols ≠ 0 ∨ img.h % rows ≠ 0 then
    .error "Image dimensions are not divisible by rows and cols."
  else
    let tile_width := img.w / cols
    let tile_height := img.h / rows
    .ok ((List.range rows).flatMap fun i => (List.range cols).map fun j =>
      img.crop (j * tile_width) (i * tile_height)
        (j * tile_width + tile_width) (i * tile_height + tile_height))

/-- The slicing loop of `_convert_frames_to_grids` (line 898):
`video[i : i + num_images_per_grid]` for `i` advancing by `sz`. -/
def chunkList {α : Type} (sz : ℕ) : List α → List (List α)
  | [] => []
  | x :: xs => (x :: xs.take (sz - 1)) :: chunkList sz (xs.drop (sz - 1))
termination_by l => l.length
decreasing_by
  simp only [List.length_drop, List.length_cons]
  omega

/-- A Python list comprehension over a raising function: the first
raise propagates. -/
def exceptMapM {α β : Type} (f : α → Except String β) :
    List α → Except String (List β)
  | [] => .ok []
  | a :: l =>
    match f a with
    | .error e => .error e
    | .ok b =>
      match exceptMapM f l with
      | .error e => .error e
      | .ok r => .ok (b :: r)

/-- `_convert_frames_to_grids` (lines 893-903): chunk the video into
runs of `grid_size²` frames and tile each run into one grid. -/
def convert_frames_to_grids (video : List Image) (grid_size : ℕ) :
    Except String (List Image) :=
  exceptMapM (fun c => image_grid c grid_size grid_size)
    (chunkList (grid_size ^ 2) video)

/-- `_grids_to_frames` (lines 905-906):
`[frame for grid in grids for frame in image_split(grid, grid_size, grid_size)]`. -/
def grids_to_frames (grids : List Image) (grid_size : ℕ) :
    Except String (List Image) :=
  match exceptMapM (fun g => image_split g grid_size grid_size) grids with
  | .error e => .error e
  | .ok splits => .ok splits.flatten

/-- The output assembly of `__call__` (lines 1740-1742): unpack the
decoded grids to frames, truncate the padding frames beyond
`num_video_frames`, and reindex by `indices`. -/
def assemble_output (grids : List Image) (grid_size num_video_frames : ℕ)
    (indices : List ℕ) (d : Image) : Except String (List Image) :=
  match grids_to_frames grids grid_size with
  | .error e => .error e
  | .ok shuffled =>
    .ok ((List.range num_video_frames).map fun i =>
      (shuffled.take num_video_frames).getD (indices.getD i 0) d)

/-! ### Input validation and call ordering (`check_inputs` lines
592-600, `__call__` lines 1378-1419) -/

/-- An invocation of an external model collaborator. -/
inductive ModelCall where
  | textEncoder
  | unetModel
  | controlnetModel
  | vae
deriving DecidableEq

/-- The leading check of `check_inputs` (lines 596-600): every entry of
`control_video` must have the same length as `video`. -/
def checkControlVideoLengths (video : List Image) :
    List (List Image) → Except String Unit
  | [] => .ok ()
  | cv :: rest =>
    if video.length ≠ cv.length then
      .error "Expected length of video and control_video to be equal"
    else checkControlVideoLengths video rest

/-- The opening of `__call__` up to and including `check_inputs`
(lines 1378-1419): frames are resized (line 1378-1379) and packed into
grids (lines 1388-1389) — pure image work — then `check_inputs` runs
(line 1405); only after it passes does the pipeline proceed to the
model-invoking remainder, modelled as the arbitrary continuation
`modelPhase` which records the collaborator calls it makes. -/
def rave_call_model (video : List Image) (control_video : List (List Image))
    (grid_size w h : ℕ)
    (modelPhase : List Image → List (List Image) → List Image → List (List Image) →
      Except String (List Image) × List ModelCall) :
    Except String (List Image) × List ModelCall :=
  let video' := video.map fun f => f.resize w h
  let control_video' := control_video.map fun cv => cv.map fun f => f.resize w h
  match convert_frames_to_grids video' grid_size with
  | .error e => (.error e, [])
  | .ok grids =>
    match exceptMapM (fun cv => convert_frames_to_grids cv grid_size) control_video' with
    | .error e => (.error e, [])
    | .ok control_grids =>
      match checkControlVideoLengths video' control_video' with
      | .error e => (.error e, [])
      | .ok _ => modelPhase video' control_video' grids control_grids

/-! ## Theorems -/

/-! ### C6: guidance degeneracy -/

/-- C6: the guidance combination computes
`unconditional + guidance_scale * (conditional - unconditional)`;
consequently for all estimates `u`, `c`, the combination at scale `1`
equals `c` and at scale `0` equals `u` (exact arithmetic over the
embedded combination function). -/
theorem guidance_combine_degeneracy (u c : ℚ) (g : ℚ) :
    guidanceCombine u c g = u + g * (c - u) ∧
      guidanceCombine u c 1 = c ∧ guidanceCombine u c 0 = u := by
  refine ⟨rfl, ?_, ?_⟩ <;> simp [guidanceCombine]

/-! ### C2: controlnet keep weights -/

/-- C2 (code-bug exhibit): the generation loop's keep weights follow the
claimed binary gate — for the single window `(0.2, 0.8)` and `10` steps
they are `0` at steps `0, 1, 8, 9` and `1` at steps `2..7` — but the
inversion loop diverges from the claim: with `len(timesteps) = 10`,
`len(inversion_timesteps) = 20` and window `(0.5, 1.0)`, the source's
entry at inversion step `7` is `1.0` (it divides step 7 by the
*generation* loop's 10 timesteps in the start test), while the claimed
same-loop formula yields `0.0`. -/
theorem controlnet_keep_inversion_divergence :
    (controlnet_keep_entry 0 10 (1/5) (4/5) = 0 ∧
      controlnet_keep_entry 1 10 (1/5) (4/5) = 0 ∧
      controlnet_keep_entry 2 10 (1/5) (4/5) = 1 ∧
      controlnet_keep_entry 3 10 (1/5) (4/5) = 1 ∧
      controlnet_keep_entry 4 10 (1/5) (4/5) = 1 ∧
      controlnet_keep_entry 5 10 (1/5) (4/5) = 1 ∧
      controlnet_keep_entry 6 10 (1/5) (4/5) = 1 ∧
      controlnet_keep_entry 7 10 (1/5) (4/5) = 1 ∧
      controlnet_keep_entry 8 10 (1/5) (4/5) = 0 ∧
      controlnet_keep_entry 9 10 (1/5) (4/5) = 0) ∧
    inversion_controlnet_keep_entry 7 10 20 (1/2) 1 = 1 ∧
    controlnet_keep_entry 7 20 (1/2) 1 = 0 := by
  refine ⟨⟨?_, ?_, ?_, ?_, ?_, ?_, ?_, ?_, ?_, ?_⟩, ?_, ?_⟩ <;>
    norm_num [controlnet_keep_entry, inversion_controlnet_keep_entry]

/-! ### C10: strength override in inversion mode -/

/-- C10: whenever inversion is requested (an inversion prompt or
inversion prompt embeddings are supplied), the user-supplied `strength`
is overridden to `1`, so `get_timesteps` returns the full
`num_inference_steps` schedule regardless of the `strength` passed. -/
theorem inversion_overrides_strength {T P Q : Type} (timesteps : List T)
    (n order : ℕ) (strength : ℚ) (ip : Option P) (ipe : Option Q)
    (h : is_inversion_mode ip ipe = true) :
    get_timesteps timesteps n (effective_strength strength ip ipe) order
      = (timesteps, n) := by
  simp only [effective_strength, h, if_true]
  simp [get_timesteps, pyInt, Int.floor_natCast]

/-- Witness for C10: inversion prompt supplied, `strength = 1/2`,
three timesteps; the full schedule is used. -/
theorem inversion_overrides_strength_witness :
    is_inversion_mode (some 0) (none : Option Unit) = true ∧
      get_timesteps [981, 961, 941] 3
        (effective_strength (1/2) (some 0) (none : Option Unit)) 1
        = ([981, 961, 941], 3) :=
  ⟨rfl, inversion_overrides_strength [981, 961, 941] 3 1 (1/2) (some 0) none rfl⟩

/-! ### List helper lemmas -/

theorem length_foldl_set {α : Type} (l : List ℕ) (F : ℕ → ℕ) (G : ℕ → α) :
    ∀ cur : List α, (l.foldl (fun c i => c.set (F i) (G i)) cur).length = cur.length := by
  induction l with
  | nil => intro cur; rfl
  | cons a l ih =>
    intro cur
    simpa [List.length_set] using ih (cur.set (F a) (G a))

theorem shuffleFrames_length {α : Type} (frames : List α) (indices perm : List ℕ)
    (d : α) : (shuffleFrames frames indices perm d).length = frames.length :=
  length_foldl_set (List.range perm.length) (fun i => perm.getD i 0)
    (fun i => frames.getD (indices.getD i 0) d) frames

theorem getD_mem_of_lt {α : Type} (l : List α) (j : ℕ) (d : α) (h : j < l.length) :
    l.getD j d ∈ l := by
  rw [List.getD_eq_getElem?_getD, List.getElem?_eq_getElem h]
  exact List.getElem_mem h

theorem getD_ne_of_nodup {l : List ℕ} (hnd : l.Nodup) {j k : ℕ} (hj : j < l.length)
    (hk : k < l.length) (hne : j ≠ k) : l.getD j 0 ≠ l.getD k 0 := by
  rw [List.getD_eq_getElem?_getD, List.getD_eq_getElem?_getD,
    List.getElem?_eq_getElem hj, List.getElem?_eq_getElem hk]
  simpa [hnd.getElem_inj_iff] using hne

/-! ### C1: shuffle invariant and final restoration -/

theorem shuffleFrames_aux {α : Type} (frames : List α) (indices perm : List ℕ)
    (d : α) (hnd : perm.Nodup) (hlt : ∀ x ∈ perm, x < frames.length) :
    ∀ k, k ≤ perm.length → ∀ j, j < k →
      ((List.range k).foldl
          (fun cur i => cur.set (perm.getD i 0) (frames.getD (indices.getD i 0) d))
          frames).getD (perm.getD j 0) d
        = frames.getD (indices.getD j 0) d := by
  intro k
  induction k with
  | zero => intro _ j hj; omega
  | succ k ih =>
    intro hk j hj
    rw [List.range_succ, List.foldl_append, List.foldl_cons, List.foldl_nil]
    have hlen :
        ((List.range k).foldl
          (fun cur i => cur.set (perm.getD i 0) (frames.getD (indices.getD i 0) d))
          frames).length = frames.length :=
      length_foldl_set (List.range k) (fun i => perm.getD i 0)
        (fun i => frames.getD (indices.getD i 0) d) frames
    by_cases hjk : j = k
    · subst hjk
      have hmem : perm.getD j 0 ∈ perm := getD_mem_of_lt perm j 0 (by omega)
      have hbound : perm.getD j 0 < frames.length := hlt _ hmem
      rw [List.getD_eq_getElem?_getD, List.getElem?_set, if_pos rfl, hlen,
        if_pos hbound, Option.getD_some]
    · have hne : perm.getD k 0 ≠ perm.getD j 0 :=
        getD_ne_of_nodup hnd (by omega) (by omega) (fun h => hjk h.symm)
      rw [List.getD_eq_getElem?_getD, List.getElem?_set, if_neg hne,
        ← List.getD_eq_getElem?_getD]
      exact ih (by omega) j (by omega)

theorem shuffleFrames_getD {α : Type} (frames : List α) (indices perm : List ℕ)
    (d : α) (hnd : perm.Nodup) (hlt : ∀ x ∈ perm, x < frames.length)
    (j : ℕ) (hj : j < perm.length) :
    (shuffleFrames frames indices perm d).getD (perm.getD j 0) d
      = frames.getD (indices.getD j 0) d :=
  shuffleFrames_aux frames indices perm d hnd hlt perm.length le_rfl j hj

theorem shuffle_step_inv {α : Type} {n : ℕ} {video : List α} {d : α}
    {st : List α × List ℕ} {p : List ℕ} (hn : n ≤ video.length)
    (hInv : ShuffleInv n video d st) (hp : IsPermList p n) :
    ShuffleInv n video d (shuffleFrames st.1 st.2 p d, p) := by
  obtain ⟨hlen, hilen, hibnd, hget⟩ := hInv
  obtain ⟨hplen, hpnd, hpbnd⟩ := hp
  refine ⟨by rw [shuffleFrames_length, hlen], hplen, hpbnd, ?_⟩
  intro i hi
  have hlt : ∀ x ∈ p, x < st.1.length := by
    intro x hx
    have := hpbnd x hx
    omega
  rw [shuffleFrames_getD st.1 st.2 p d hpnd hlt i (by omega)]
  exact hget i hi

theorem runShuffleSteps_inv {α : Type} {n : ℕ} {video : List α} {d : α}
    (hn : n ≤ video.length) (perms : List (List ℕ))
    (hp : ∀ p ∈ perms, IsPermList p n) :
    ∀ st : List α × List ℕ, ShuffleInv n video d st →
      ShuffleInv n video d (perms.foldl (fun st p => (shuffleFrames st.1 st.2 p d, p)) st) := by
  induction perms with
  | nil => intro st h; exact h
  | cons p perms ih =>
    intro st h
    rw [List.foldl_cons]
    exact ih (fun q hq => hp q (List.mem_cons_of_mem p hq))
      _ (shuffle_step_inv hn h (hp p (List.mem_cons_self p perms)))

theorem shuffle_inv_init {α : Type} (video : List α) (d : α) (n : ℕ) :
    ShuffleInv n video d (video, List.range n) := by
  refine ⟨rfl, List.length_range n, fun x hx => List.mem_range.mp hx, ?_⟩
  intro i hi
  have : (List.range n).getD i 0 = i := by
    rw [List.getD_eq_getElem?_getD, List.getElem?_range hi, Option.getD_some]
  rw [this]

theorem restoreOrder_of_inv {α : Type} {n : ℕ} {video : List α} {d : α}
    {st : List α × List ℕ} (hInv : ShuffleInv n video d st)
    (hn : n ≤ video.length) :
    restoreOrder st.1 st.2 n d = video.take n := by
  obtain ⟨hlen, hilen, hibnd, hget⟩ := hInv
  apply List.ext_getElem
  · simp [restoreOrder, List.length_take]
    omega
  · intro i h₁ h₂
    have hi : i < n := by simpa [restoreOrder] using h₁
    rw [List.getElem_take]
    simp only [restoreOrder, List.getElem_map, List.getElem_range]
    have hslot : st.2.getD i 0 < n :=
      hibnd _ (getD_mem_of_lt st.2 i 0 (by omega))
    have htake : (st.1.take n).getD (st.2.getD i 0) d = st.1.getD (st.2.getD i 0) d := by
      rw [List.getD_eq_getElem?_getD, List.getElem?_take_of_lt hslot,
        ← List.getD_eq_getElem?_getD]
    rw [htake, hget i hi, List.getD_eq_getElem?_getD,
      List.getElem?_eq_getElem (by omega : i < video.length), Option.getD_some]

/-- C1: with shuffling enabled, for any number of steps and any sequence
of per-step permutations drawn by `_shuffle`, the invariant
"`indices[i]` is the slot currently holding original frame `i`" holds
after every step (starting from the identity `torch.arange` indices),
and therefore the final reindex
`video[i] = shuffled_video[indices[i]]` of `__call__` (lines 1741-1742)
returns the frames in their original order. -/
theorem shuffle_restores_original_order {α : Type} (video : List α) (d : α)
    (n : ℕ) (perms : List (List ℕ)) (hn : n ≤ video.length)
    (hp : ∀ p ∈ perms, IsPermList p n) :
    (∀ k, ShuffleInv n video d (runShuffleSteps video (perms.take k) (List.range n) d)) ∧
      restoreOrder (runShuffleSteps video perms (List.range n) d).1
        (runShuffleSteps video perms (List.range n) d).2 n d = video.take n := by
  constructor
  · intro k
    exact runShuffleSteps_inv hn (perms.take k)
      (fun p hq => hp p (List.take_subset k perms hq)) _
      (shuffle_inv_init video d n)
  · exact restoreOrder_of_inv
      (runShuffleSteps_inv hn perms hp _ (shuffle_inv_init video d n)) hn

/-- Witness for C1 at a concrete input: four frames, three shuffling
steps; the restored output equals the original video. -/
theorem shuffle_restores_original_order_witness :
    (∀ p ∈ [[1, 2, 3, 0], [2, 0, 3, 1], [3, 2, 1, 0]], IsPermList p 4) ∧
      restoreOrder
        (runShuffleSteps [10, 20, 30, 40] [[1, 2, 3, 0], [2, 0, 3, 1], [3, 2, 1, 0]]
          (List.range 4) 0).1
        (runShuffleSteps [10, 20, 30, 40] [[1, 2, 3, 0], [2, 0, 3, 1], [3, 2, 1, 0]]
          (List.range 4) 0).2 4 0 = [10, 20, 30, 40] :=
  ⟨by decide,
    (shuffle_restores_original_order [10, 20, 30, 40] 0 4
      [[1, 2, 3, 0], [2, 0, 3, 1], [3, 2, 1, 0]] (by decide) (by decide)).2⟩

/-! ### C4: determinism of the denoising loop -/

/-- C4: `_denoise_loop` is a deterministic function of its explicit
inputs — with the denoiser, controlnet and scheduler modelled as fixed
deterministic functions and the random generator supplied explicitly,
two runs with identical configurations and identical initial states
(hence identical generator seeds) produce identical final states,
identical latent trajectories at every step, and draw identical
permutations at each shuffling step; no implicit or global randomness
is consumed. -/
theorem denoise_loop_deterministic {L C E R T G : Type} [Field L]
    (cfg₁ cfg₂ : LoopCfg L C E R T G) (s₁ s₂ : LoopState L C G)
    (hc : cfg₁ = cfg₂) (hs : s₁ = s₂) :
    runLoop cfg₁ s₁ = runLoop cfg₂ s₂ := by
  subst hc
  subst hs
  rfl

/-- Witness for C4: two runs of the sample configuration from the same
seed agree. -/
theorem denoise_loop_deterministic_witness :
    runLoop sampleLoopCfg sampleLoopState = runLoop sampleLoopCfg sampleLoopState :=
  denoise_loop_deterministic sampleLoopCfg sampleLoopCfg
    sampleLoopState sampleLoopState rfl rfl

/-! ### C5: guidance disabled at scale at most one -/

/-- C5: for every call with `guidance_scale ≤ 1`,
`do_classifier_free_guidance` is `false` and each loop iteration takes
the single-branch path: the latent batch is never doubled (the model
input is exactly the scaled post-shuffle latents), the unconditional
branch is never computed, and the denoiser output is passed directly to
the scheduler step without the guidance combination. -/
theorem no_cfg_single_branch {L C E R T G : Type} [Field L]
    (cfg : LoopCfg L C E R T G) (hg : cfg.guidance_scale ≤ 1)
    (i : ℕ) (t : T) (s0 : LoopState L C G) :
    do_classifier_free_guidance cfg.guidance_scale = false ∧
      denoiseStep cfg i t s0 =
        (let sp : LoopState L C G × Option (List ℕ) :=
          if cfg.use_shuffling then
            ((shuffleInLoop cfg s0).1, some (shuffleInLoop cfg s0).2)
          else (s0, none)
         let s := sp.1
         let input := cfg.scaleModelInput s.latents t
         let res := cfg.controlnet input t cfg.prompt_embeds s.control
           (cfg.controlnet_conditioning_scale * cfg.controlnet_keep.getD i 1)
           cfg.guess_mode
         (⟨cfg.schedStep (cfg.unet input t cfg.prompt_embeds res) t s.latents,
            s.control, s.indices, s.gen⟩, sp.2)) := by
  have hb : do_classifier_free_guidance cfg.guidance_scale = false := by
    simp [do_classifier_free_guidance]
    exact hg
  refine ⟨hb, ?_⟩
  simp only [denoiseStep, hb, Bool.and_false, if_false, Bool.false_eq_true,
    ite_false]

/-- Witness for C5: the sample configuration has `guidance_scale = 1`,
so its step takes the single-branch path. -/
theorem no_cfg_single_branch_witness :
    sampleLoopCfg.guidance_scale ≤ 1 ∧
      do_classifier_free_guidance sampleLoopCfg.guidance_scale = false :=
  ⟨by norm_num [sampleLoopCfg],
    (no_cfg_single_branch sampleLoopCfg (by norm_num [sampleLoopCfg])
      0 981 sampleLoopState).1⟩

/-! ### C8: no shuffling means stable order -/

theorem denoiseStep_no_shuffle {L C E R T G : Type} [Field L]
    (cfg : LoopCfg L C E R T G) (hs : cfg.use_shuffling = false)
    (i : ℕ) (t : T) (s : LoopState L C G) :
    (denoiseStep cfg i t s).1.indices = s.indices ∧
      (denoiseStep cfg i t s).1.gen = s.gen ∧
      (denoiseStep cfg i t s).2 = none := by
  simp [denoiseStep, hs]

theorem runLoop_no_shuffle_aux {L C E R T G : Type} [Field L]
    (cfg : LoopCfg L C E R T G) (hs : cfg.use_shuffling = false)
    (pairs : List (ℕ × T)) :
    ∀ acc : LoopState L C G × List (List L) × List (List ℕ),
      (pairs.foldl (loopStep cfg) acc).1.indices = acc.1.indices ∧
        (pairs.foldl (loopStep cfg) acc).1.gen = acc.1.gen ∧
        (pairs.foldl (loopStep cfg) acc).2.2 = acc.2.2 := by
  induction pairs with
  | nil => intro acc; exact ⟨rfl, rfl, rfl⟩
  | cons p pairs ih =>
    intro acc
    rw [List.foldl_cons]
    obtain ⟨h1, h2, h3⟩ := ih (loopStep cfg acc p)
    obtain ⟨g1, g2, g3⟩ := denoiseStep_no_shuffle cfg hs p.1 p.2 acc.1
    refine ⟨?_, ?_, ?_⟩
    · rw [h1]; exact g1
    · rw [h2]; exact g2
    · rw [h3]
      simp [loopStep, g3]

/-- C8: with `use_shuffling = False`, `_shuffle` is never invoked at
any step (no permutation is drawn and the generator state is never
advanced), the `indices` array keeps its initial value throughout, and
— starting from the identity indices — the final reindex of `__call__`
leaves the frame order unchanged. -/
theorem no_shuffling_preserves_order {L C E R T G : Type} [Field L]
    (cfg : LoopCfg L C E R T G) (hs : cfg.use_shuffling = false)
    (s0 : LoopState L C G) :
    (runLoop cfg s0).1.indices = s0.indices ∧
      (runLoop cfg s0).1.gen = s0.gen ∧
      (runLoop cfg s0).2.2 = [] ∧
      ∀ (shuffled : List L) (n : ℕ) (d : L), s0.indices = List.range n →
        n ≤ shuffled.length →
        restoreOrder shuffled (runLoop cfg s0).1.indices n d = shuffled.take n := by
  obtain ⟨h1, h2, h3⟩ := runLoop_no_shuffle_aux cfg hs cfg.timesteps.enum
    (s0, ([] : List (List L)), ([] : List (List ℕ)))
  have h1' : (runLoop cfg s0).1.indices = s0.indices := h1
  have h2' : (runLoop cfg s0).1.gen = s0.gen := h2
  have h3' : (runLoop cfg s0).2.2 = [] := h3
  refine ⟨h1', h2', h3', ?_⟩
  intro shuffled n d hid hn
  rw [h1', hid]
  exact restoreOrder_of_inv (shuffle_inv_init shuffled d n) hn

/-- Witness for C8: the sample configuration with shuffling off keeps
identity indices and an untouched generator, and restores the input
order. -/
theorem no_shuffling_preserves_order_witness :
    sampleLoopCfgNoShuffle.use_shuffling = false ∧
      (runLoop sampleLoopCfgNoShuffle sampleLoopState).1.indices
          = sampleLoopState.indices ∧
      restoreOrder [(5 : ℚ), 6, 7, 8]
        (runLoop sampleLoopCfgNoShuffle sampleLoopState).1.indices 4 0
        = [5, 6, 7, 8] := by
  have h := no_shuffling_preserves_order sampleLoopCfgNoShuffle rfl sampleLoopState
  exact ⟨rfl, h.1, h.2.2.2 [5, 6, 7, 8] 4 0 rfl (by norm_num)⟩

/-! ### Grid packing lemmas (towards C3 and C9) -/

theorem pasteFold_w (w0 h0 cols : ℕ) (pairs : List (ℕ × Image)) :
    ∀ base : Image, (pasteFold w0 h0 cols base pairs).w = base.w := by
  induction pairs with
  | nil => intro base; rfl
  | cons p pairs ih =>
    intro base
    exact ih (base.paste p.2 (p.1 % cols * w0) (p.1 / cols * h0))

theorem pasteFold_h (w0 h0 cols : ℕ) (pairs : List (ℕ × Image)) :
    ∀ base : Image, (pasteFold w0 h0 cols base pairs).h = base.h := by
  induction pairs with
  | nil => intro base; rfl
  | cons p pairs ih =>
    intro base
    exact ih (base.paste p.2 (p.1 % cols * w0) (p.1 / cols * h0))

theorem paste_pix_in (base src : Image) (x0 y0 X Y : ℕ)
    (h : x0 ≤ X ∧ X < x0 + src.w ∧ y0 ≤ Y ∧ Y < y0 + src.h) :
    (base.paste src x0 y0).pix X Y = src.getPix (X - x0) (Y - y0) :=
  if_pos h

theorem paste_pix_out (base src : Image) (x0 y0 X Y : ℕ)
    (h : ¬(x0 ≤ X ∧ X < x0 + src.w ∧ y0 ≤ Y ∧ Y < y0 + src.h)) :
    (base.paste src x0 y0).pix X Y = base.pix X Y :=
  if_neg h

theorem pasteFold_pix_out (w0 h0 cols X Y : ℕ) (pairs : List (ℕ × Image)) :
    ∀ base : Image,
      (∀ p ∈ pairs, p.2.w = w0 ∧ p.2.h = h0) →
      (∀ p ∈ pairs, ¬ inTile cols w0 h0 p.1 X Y) →
      (pasteFold w0 h0 cols base pairs).pix X Y = base.pix X Y := by
  induction pairs with
  | nil => intro base _ _; rfl
  | cons p pairs ih =>
    intro base hsz hout
    have hp := hout p (List.mem_cons_self p pairs)
    have hw := (hsz p (List.mem_cons_self p pairs)).1
    have hh := (hsz p (List.mem_cons_self p pairs)).2
    have hstep : (base.paste p.2 (p.1 % cols * w0) (p.1 / cols * h0)).pix X Y
        = base.pix X Y := by
      apply paste_pix_out
      intro hcon
      rw [hw, hh] at hcon
      exact hp hcon
    have htail := ih (base.paste p.2 (p.1 % cols * w0) (p.1 / cols * h0))
      (fun q hq => hsz q (List.mem_cons_of_mem p hq))
      (fun q hq => hout q (List.mem_cons_of_mem p hq))
    exact htail.trans hstep

theorem pasteFold_pix_in (w0 h0 cols X Y idx : ℕ) (img : Image)
    (pairs : List (ℕ × Image)) :
    ∀ base : Image,
      (∀ p ∈ pairs, p.2.w = w0 ∧ p.2.h = h0) →
      (idx, img) ∈ pairs →
      (∀ p ∈ pairs, inTile cols w0 h0 p.1 X Y → p = (idx, img)) →
      inTile cols w0 h0 idx X Y →
      (pasteFold w0 h0 cols base pairs).pix X Y
        = img.getPix (X - idx % cols * w0) (Y - idx / cols * h0) := by
  induction pairs with
  | nil => intro base _ hmem _ _; cases hmem
  | cons q pairs ih =>
    intro base hsz hmem huniq hin
    by_cases hq : (idx, img) ∈ pairs
    · exact ih (base.paste q.2 (q.1 % cols * w0) (q.1 / cols * h0))
        (fun p hp => hsz p (List.mem_cons_of_mem q hp)) hq
        (fun p hp ht => huniq p (List.mem_cons_of_mem q hp) ht) hin
    · have hqe : q = (idx, img) := by
        rcases List.mem_cons.mp hmem with h | h
        · exact h.symm
        · exact absurd h hq
      subst hqe
      have hnone : ∀ p ∈ pairs, ¬ inTile cols w0 h0 p.1 X Y := by
        intro p hp ht
        exact hq (by rwa [huniq p (List.mem_cons_of_mem _ hp) ht] at hp)
      have hw := (hsz (idx, img) (List.mem_cons_self _ pairs)).1
      have hh := (hsz (idx, img) (List.mem_cons_self _ pairs)).2
      have h1 := pasteFold_pix_out w0 h0 cols X Y pairs
        (base.paste img (idx % cols * w0) (idx / cols * h0))
        (fun p hp => hsz p (List.mem_cons_of_mem _ hp)) hnone
      have h2 : (base.paste img (idx % cols * w0) (idx / cols * h0)).pix X Y
          = img.getPix (X - idx % cols * w0) (Y - idx / cols * h0) := by
        apply paste_pix_in
        rw [hw, hh]
        exact hin
      exact h1.trans h2

theorem tile_region_eq {w0 x q j : ℕ} (hx : x < w0) (h1 : q * w0 ≤ j * w0 + x)
    (h2 : j * w0 + x < q * w0 + w0) : q = j := by
  have hw0 : 0 < w0 := by omega
  have hA : q * w0 < (j + 1) * w0 := by
    rw [add_one_mul]
    omega
  have hB : j * w0 < (q + 1) * w0 := by
    rw [add_one_mul]
    omega
  have hA' : q < j + 1 := (Nat.mul_lt_mul_right hw0).mp hA
  have hB' : j < q + 1 := (Nat.mul_lt_mul_right hw0).mp hB
  omega

theorem inTile_unique {k w0 h0 i j x y m : ℕ} (hx : x < w0) (hy : y < h0)
    (hin : inTile k w0 h0 m (j * w0 + x) (i * h0 + y)) :
    m % k = j ∧ m / k = i := by
  obtain ⟨h1, h2, h3, h4⟩ := hin
  exact ⟨tile_region_eq hx h1 h2, tile_region_eq hy h3 h4⟩

theorem inTile_self {k w0 h0 i j x y : ℕ} (hk : 0 < k) (hj : j < k)
    (hx : x < w0) (hy : y < h0) :
    inTile k w0 h0 (i * k + j) (j * w0 + x) (i * h0 + y) := by
  have hmod : (i * k + j) % k = j := by
    rw [mul_comm i k, Nat.mul_add_mod, Nat.mod_eq_of_lt hj]
  have hdiv : (i * k + j) / k = i := by
    rw [mul_comm i k, Nat.mul_add_div hk, Nat.div_eq_of_lt hj, Nat.add_zero]
  refine ⟨?_, ?_, ?_, ?_⟩ <;> simp only [hmod, hdiv] <;> omega

theorem enum_mem_eq {α : Type} (l : List α) (p : ℕ × α) (hp : p ∈ l.enum) :
    p.1 < l.length ∧ p = (p.1, l.getD p.1 p.2) := by
  obtain ⟨t, ht, hget⟩ := List.mem_iff_getElem.mp hp
  rw [List.getElem_enum] at hget
  have ht' : t < l.length := by
    have := ht
    rwa [List.enum_length] at this
  constructor
  · rw [← hget]
    exact ht'
  · rw [← hget]
    simp [List.getD_eq_getElem?_getD, List.getElem?_eq_getElem ht']

theorem image_grid_ok (chunk : List Image) (k w0 h0 : ℕ)
    (hne : chunk ≠ []) (hlen : chunk.length ≤ k * k)
    (hsz : ∀ f ∈ chunk, f.w = w0 ∧ f.h = h0) :
    image_grid chunk k k =
      .ok (pasteFold w0 h0 k (imageNew (k * w0) (k * h0)) chunk.enum) := by
  obtain ⟨f0, rest, rfl⟩ := List.exists_cons_of_ne_nil hne
  have hw0 : f0.w = w0 := (hsz f0 (List.mem_cons_self f0 rest)).1
  have hh0 : f0.h = h0 := (hsz f0 (List.mem_cons_self f0 rest)).2
  simp only [image_grid]
  rw [if_neg (Nat.not_lt.mpr hlen)]
  simp [hw0, hh0]

theorem enum_sizes {w0 h0 : ℕ} {chunk : List Image}
    (hsz : ∀ f ∈ chunk, f.w = w0 ∧ f.h = h0) :
    ∀ p ∈ chunk.enum, p.2.w = w0 ∧ p.2.h = h0 := by
  intro p hp
  obtain ⟨ht', hpe⟩ := enum_mem_eq chunk p hp
  apply hsz
  rw [hpe]
  exact getD_mem_of_lt chunk p.1 p.2 ht'

theorem image_grid_pix_covered (chunk : List Image) (k w0 h0 i j x y : ℕ)
    (hk : 0 < k) (hsz : ∀ f ∈ chunk, f.w = w0 ∧ f.h = h0)
    (hi : i < k) (hj : j < k) (hx : x < w0) (hy : y < h0)
    (hlt : i * k + j < chunk.length) :
    (pasteFold w0 h0 k (imageNew (k * w0) (k * h0)) chunk.enum).pix
        (j * w0 + x) (i * h0 + y)
      = (chunk.getD (i * k + j) (imageNew 0 0)).getPix x y := by
  have hmem : (i * k + j, chunk.getD (i * k + j) (imageNew 0 0)) ∈ chunk.enum := by
    rw [List.mem_iff_getElem]
    refine ⟨i * k + j, by rwa [List.enum_length], ?_⟩
    rw [List.getElem_enum]
    simp [List.getD_eq_getElem?_getD, List.getElem?_eq_getElem hlt]
  have huniq : ∀ p ∈ chunk.enum, inTile k w0 h0 p.1 (j * w0 + x) (i * h0 + y) →
      p = (i * k + j, chunk.getD (i * k + j) (imageNew 0 0)) := by
    intro p hp ht
    obtain ⟨hlt', hpe⟩ := enum_mem_eq chunk p hp
    obtain ⟨hm, hd⟩ := inTile_unique hx hy ht
    have hp1 : p.1 = i * k + j := by
      have h5 := Nat.div_add_mod p.1 k
      rw [hm, hd] at h5
      rw [mul_comm i k]
      omega
    rw [hpe, hp1]
    have : chunk.getD (i * k + j) p.2 = chunk.getD (i * k + j) (imageNew 0 0) := by
      rw [List.getD_eq_getElem?_getD, List.getD_eq_getElem?_getD,
        List.getElem?_eq_getElem hlt]
      rfl
    rw [this]
  have hres := pasteFold_pix_in w0 h0 k (j * w0 + x) (i * h0 + y) (i * k + j)
    (chunk.getD (i * k + j) (imageNew 0 0)) chunk.enum
    (imageNew (k * w0) (k * h0)) (enum_sizes hsz) hmem huniq
    (inTile_self hk hj hx hy)
  rw [hres]
  have hmod : (i * k + j) % k = j := by
    rw [mul_comm i k, Nat.mul_add_mod, Nat.mod_eq_of_lt hj]
  have hdiv : (i * k + j) / k = i := by
    rw [mul_comm i k, Nat.mul_add_div hk, Nat.div_eq_of_lt hj, Nat.add_zero]
  rw [hmod, hdiv, Nat.add_sub_cancel_left, Nat.add_sub_cancel_left]

theorem image_grid_pix_blank (chunk : List Image) (k w0 h0 i j x y : ℕ)
    (hk : 0 < k) (hsz : ∀ f ∈ chunk, f.w = w0 ∧ f.h = h0)
    (hi : i < k) (hj : j < k) (hx : x < w0) (hy : y < h0)
    (hge : chunk.length ≤ i * k + j) :
    (pasteFold w0 h0 k (imageNew (k * w0) (k * h0)) chunk.enum).pix
        (j * w0 + x) (i * h0 + y) = 0 := by
  have hnone : ∀ p ∈ chunk.enum, ¬ inTile k w0 h0 p.1 (j * w0 + x) (i * h0 + y) := by
    intro p hp ht
    obtain ⟨hlt', _⟩ := enum_mem_eq chunk p hp
    obtain ⟨hm, hd⟩ := inTile_unique hx hy ht
    have hp1 : p.1 = i * k + j := by
      have h5 := Nat.div_add_mod p.1 k
      rw [hm, hd] at h5
      rw [mul_comm i k]
      omega
    omega
  rw [pasteFold_pix_out w0 h0 k (j * w0 + x) (i * h0 + y) chunk.enum
    (imageNew (k * w0) (k * h0)) (enum_sizes hsz) hnone]
  rfl

theorem image_split_grid_ok (G : Image) (k w0 h0 : ℕ) (hk : 0 < k)
    (hw : G.w = k * w0) (hh : G.h = k * h0) :
    image_split G k k =
      .ok ((List.range k).flatMap fun i => (List.range k).map fun j =>
        G.crop (j * w0) (i * h0) (j * w0 + w0) (i * h0 + h0)) := by
  have hcond : ¬(G.w % k ≠ 0 ∨ G.h % k ≠ 0) := by
    rw [hw, hh]
    simp [Nat.mul_mod_right]
  simp only [image_split]
  rw [if_neg hcond, hw, hh, Nat.mul_div_cancel_left w0 hk,
    Nat.mul_div_cancel_left h0 hk]

theorem flatMap_fixed_getElem? {α β : Type} (F : α → List β) (C : ℕ) (d : α) :
    ∀ (L : List α) (q r : ℕ), q < L.length → (∀ a ∈ L, (F a).length = C) →
      r < C → (L.flatMap F)[q * C + r]? = (F (L.getD q d))[r]? := by
  intro L
  induction L with
  | nil =>
    intro q r hq _ _
    simp at hq
  | cons a L ih =>
    intro q r hq hC hr
    cases q with
    | zero =>
      rw [List.flatMap_cons, Nat.zero_mul, Nat.zero_add,
        List.getElem?_append_left (by rw [hC a (List.mem_cons_self a L)]; exact hr)]
      rfl
    | succ q =>
      rw [List.flatMap_cons]
      have hCa : (F a).length = C := hC a (List.mem_cons_self a L)
      rw [List.getElem?_append_right (by rw [hCa, Nat.succ_mul]; omega)]
      rw [hCa]
      have hidx : (q + 1) * C + r - C = q * C + r := by
        rw [Nat.succ_mul]
        omega
      rw [hidx]
      have := ih q r (by simpa using hq)
        (fun b hb => hC b (List.mem_cons_of_mem a hb)) hr
      rw [this]
      rfl

theorem length_flatMap_fixed {α β : Type} (F : α → List β) (C : ℕ) :
    ∀ L : List α, (∀ a ∈ L, (F a).length = C) →
      (L.flatMap F).length = L.length * C := by
  intro L
  induction L with
  | nil => intro _; simp
  | cons a L ih =>
    intro hC
    rw [List.flatMap_cons, List.length_append, hC a (List.mem_cons_self a L),
      ih (fun b hb => hC b (List.mem_cons_of_mem a hb)), List.length_cons,
      Nat.succ_mul]
    omega

theorem chunkList_flatten {α : Type} (sz : ℕ) (l : List α) :
    (chunkList sz l).flatten = l := by
  induction l using chunkList.induct sz with
  | case1 => rw [chunkList]; rfl
  | case2 x xs ih =>
    rw [chunkList, List.flatten_cons, ih]
    simp [List.take_append_drop]

theorem chunkList_ne_nil {α : Type} (sz : ℕ) (l : List α) :
    ∀ c ∈ chunkList sz l, c ≠ [] := by
  induction l using chunkList.induct sz with
  | case1 => intro c hc; rw [chunkList] at hc; cases hc
  | case2 x xs ih =>
    intro c hc
    rw [chunkList] at hc
    rcases List.mem_cons.mp hc with rfl | hc'
    · simp
    · exact ih c hc'

theorem chunkList_subset {α : Type} (sz : ℕ) (l : List α) :
    ∀ c ∈ chunkList sz l, ∀ a ∈ c, a ∈ l := by
  induction l using chunkList.induct sz with
  | case1 => intro c hc; rw [chunkList] at hc; cases hc
  | case2 x xs ih =>
    intro c hc a ha
    rw [chunkList] at hc
    rcases List.mem_cons.mp hc with rfl | hc'
    · rcases List.mem_cons.mp ha with rfl | ha'
      · exact List.mem_cons_self a xs
      · exact List.mem_cons_of_mem x (List.take_subset _ xs ha')
    · exact List.mem_cons_of_mem x (List.drop_subset _ xs (ih c hc' a ha))

theorem chunkList_length_le {α : Type} (sz : ℕ) (hsz : 0 < sz) (l : List α) :
    ∀ c ∈ chunkList sz l, c.length ≤ sz := by
  induction l using chunkList.induct sz with
  | case1 => intro c hc; rw [chunkList] at hc; cases hc
  | case2 x xs ih =>
    intro c hc
    rw [chunkList] at hc
    rcases List.mem_cons.mp hc with rfl | hc'
    · simp only [List.length_cons, List.length_take]
      omega
    · exact ih c hc'

theorem chunkList_length_dvd {α : Type} (sz : ℕ) (hsz : 0 < sz) (l : List α) :
    l.length % sz = 0 → ∀ c ∈ chunkList sz l, c.length = sz := by
  induction l using chunkList.induct sz with
  | case1 => intro _ c hc; rw [chunkList] at hc; cases hc
  | case2 x xs ih =>
    intro hd c hc
    have hdvd : sz ∣ (x :: xs).length := Nat.dvd_of_mod_eq_zero hd
    have hge : sz ≤ xs.length + 1 := by
      have := Nat.le_of_dvd (by simp) hdvd
      simpa using this
    rw [chunkList] at hc
    rcases List.mem_cons.mp hc with rfl | hc'
    · simp only [List.length_cons, List.length_take]
      omega
    · obtain ⟨q, hq⟩ := hdvd
      apply ih _ c hc'
      match q, hq with
      | 0, hq => simp at hq
      | q + 1, hq =>
        rw [List.length_drop]
        have hx : xs.length - (sz - 1) = sz * q := by
          rw [Nat.mul_succ] at hq
          simp only [List.length_cons] at hq
          omega
        rw [hx, Nat.mul_mod_right]

theorem exceptMapM_ok_of_ok {α β : Type} (f : α → Except String β) :
    ∀ l : List α, (∀ a ∈ l, ∃ b, f a = .ok b) →
      ∃ bs, exceptMapM f l = .ok bs ∧
        List.Forall₂ (fun a b => f a = .ok b) l bs := by
  intro l
  induction l with
  | nil => exact fun _ => ⟨[], rfl, List.Forall₂.nil⟩
  | cons a l ih =>
    intro h
    obtain ⟨b, hb⟩ := h a (List.mem_cons_self a l)
    obtain ⟨bs, hbs, hfa⟩ := ih (fun x hx => h x (List.mem_cons_of_mem a hx))
    exact ⟨b :: bs, by simp [exceptMapM, hb, hbs], List.Forall₂.cons hb hfa⟩

theorem exceptMapM_mem_right {α β : Type} (f : α → Except String β) :
    ∀ (l : List α) (bs : List β), exceptMapM f l = .ok bs →
      ∀ b ∈ bs, ∃ a ∈ l, f a = .ok b := by
  intro l
  induction l with
  | nil =>
    intro bs h b hb
    simp only [exceptMapM, Except.ok.injEq] at h
    subst h
    cases hb
  | cons a l ih =>
    intro bs h b hb
    cases hfa : f a with
    | error e => simp [exceptMapM, hfa] at h
    | ok b0 =>
      cases hrest : exceptMapM f l with
      | error e => simp [exceptMapM, hfa, hrest] at h
      | ok rest =>
        simp only [exceptMapM, hfa, hrest, Except.ok.injEq] at h
        subst h
        rcases List.mem_cons.mp hb with rfl | hb'
        · exact ⟨a, List.mem_cons_self a l, hfa⟩
        · obtain ⟨a', ha', hfa'⟩ := ih rest hrest b hb'
          exact ⟨a', List.mem_cons_of_mem a ha', hfa'⟩

theorem mul_bound_lt {j k w0 x : ℕ} (hj : j < k) (hx : x < w0) :
    j * w0 + x < k * w0 := by
  have h1 : (j + 1) * w0 ≤ k * w0 := Nat.mul_le_mul_right w0 (by omega)
  rw [add_one_mul] at h1
  omega

theorem chunk_roundtrip (chunk : List Image) (k w0 h0 : ℕ) (hk : 0 < k)
    (hne : chunk ≠ []) (hlen : chunk.length ≤ k * k)
    (hsz : ∀ f ∈ chunk, f.w = w0 ∧ f.h = h0) :
    ∃ G tiles, image_grid chunk k k = .ok G ∧ image_split G k k = .ok tiles ∧
      tiles.length = k * k ∧ G.w = k * w0 ∧ G.h = k * h0 ∧
      (∀ t, t < chunk.length →
        Image.eqv (tiles.getD t (imageNew 0 0)) (chunk.getD t (imageNew 0 0))) ∧
      (∀ t, chunk.length ≤ t → t < k * k → ∀ x y, x < w0 → y < h0 →
        (tiles.getD t (imageNew 0 0)).pix x y = 0) := by
  have hG := image_grid_ok chunk k w0 h0 hne hlen hsz
  set G := pasteFold w0 h0 k (imageNew (k * w0) (k * h0)) chunk.enum with hGdef
  have hGw : G.w = k * w0 := pasteFold_w w0 h0 k chunk.enum (imageNew (k * w0) (k * h0))
  have hGh : G.h = k * h0 := pasteFold_h w0 h0 k chunk.enum (imageNew (k * w0) (k * h0))
  have hT := image_split_grid_ok G k w0 h0 hk hGw hGh
  set tiles := (List.range k).flatMap fun i => (List.range k).map fun j =>
    G.crop (j * w0) (i * h0) (j * w0 + w0) (i * h0 + h0) with hTdef
  have hTlen : tiles.length = k * k := by
    rw [hTdef, length_flatMap_fixed _ k _ (fun a _ => by simp), List.length_range]
  have htile : ∀ t, t < k * k →
      tiles.getD t (imageNew 0 0)
        = G.crop (t % k * w0) (t / k * h0) (t % k * w0 + w0) (t / k * h0 + h0) := by
    intro t ht
    have hi : t / k < k := Nat.div_lt_of_lt_mul ht
    have hj : t % k < k := Nat.mod_lt t hk
    have hdecomp : t / k * k + t % k = t := by
      rw [mul_comm]
      exact Nat.div_add_mod t k
    have hmain := flatMap_fixed_getElem?
      (fun i => (List.range k).map fun j =>
        G.crop (j * w0) (i * h0) (j * w0 + w0) (i * h0 + h0)) k 0 (List.range k)
      (t / k) (t % k) (by simpa using hi) (fun a _ => by simp) hj
    rw [hdecomp] at hmain
    have hr : (List.range k).getD (t / k) 0 = t / k := by
      rw [List.getD_eq_getElem?_getD, List.getElem?_range hi]
      rfl
    rw [hr] at hmain
    rw [hTdef, List.getD_eq_getElem?_getD, hmain, List.getElem?_map,
      List.getElem?_range hj]
    rfl
  refine ⟨G, tiles, hG, hT, hTlen, hGw, hGh, ?_, ?_⟩
  · intro t ht
    have htk : t < k * k := lt_of_lt_of_le ht hlen
    have hi : t / k < k := Nat.div_lt_of_lt_mul htk
    have hj : t % k < k := Nat.mod_lt t hk
    have hdecomp : t / k * k + t % k = t := by
      rw [mul_comm]
      exact Nat.div_add_mod t k
    have hcmem : chunk.getD t (imageNew 0 0) ∈ chunk :=
      getD_mem_of_lt chunk t (imageNew 0 0) ht
    have hcw : (chunk.getD t (imageNew 0 0)).w = w0 := (hsz _ hcmem).1
    have hch : (chunk.getD t (imageNew 0 0)).h = h0 := (hsz _ hcmem).2
    rw [htile t htk]
    refine ⟨?_, ?_, ?_⟩
    · show t % k * w0 + w0 - t % k * w0 = (chunk.getD t (imageNew 0 0)).w
      rw [hcw]
      omega
    · show t / k * h0 + h0 - t / k * h0 = (chunk.getD t (imageNew 0 0)).h
      rw [hch]
      omega
    intro x hx y hy
    have hx' : x < w0 := by simpa [Image.crop] using hx
    have hy' : y < h0 := by simpa [Image.crop] using hy
    have hcov := image_grid_pix_covered chunk k w0 h0 (t / k) (t % k) x y hk hsz
      hi hj hx' hy' (by rw [hdecomp]; exact ht)
    rw [hdecomp] at hcov
    have hXb : t % k * w0 + x < G.w := by
      rw [hGw]
      exact mul_bound_lt hj hx'
    have hYb : t / k * h0 + y < G.h := by
      rw [hGh]
      exact mul_bound_lt hi hy'
    show (if x < t % k * w0 + w0 - t % k * w0 ∧ y < t / k * h0 + h0 - t / k * h0 then
        G.getPix (t % k * w0 + x) (t / k * h0 + y) else 0)
      = (chunk.getD t (imageNew 0 0)).pix x y
    rw [if_pos (by omega)]
    rw [Image.getPix, if_pos ⟨hXb, hYb⟩, hcov, Image.getPix,
      if_pos (by rw [hcw, hch]; exact ⟨hx', hy'⟩)]
  · intro t hge htk x y hx hy
    have hi : t / k < k := Nat.div_lt_of_lt_mul htk
    have hj : t % k < k := Nat.mod_lt t hk
    have hdecomp : t / k * k + t % k = t := by
      rw [mul_comm]
      exact Nat.div_add_mod t k
    rw [htile t htk]
    have hXb : t % k * w0 + x < G.w := by
      rw [hGw]
      exact mul_bound_lt hj hx
    have hYb : t / k * h0 + y < G.h := by
      rw [hGh]
      exact mul_bound_lt hi hy
    have hblank := image_grid_pix_blank chunk k w0 h0 (t / k) (t % k) x y hk hsz
      hi hj hx hy (by rw [hdecomp]; exact hge)
    show (if x < t % k * w0 + w0 - t % k * w0 ∧ y < t / k * h0 + h0 - t / k * h0 then
        G.getPix (t % k * w0 + x) (t / k * h0 + y) else 0) = 0
    rw [if_pos (by omega), Image.getPix, if_pos ⟨hXb, hYb⟩, hblank]

theorem grids_chain (k w0 h0 : ℕ) (hk : 0 < k) :
    ∀ chunks : List (List Image),
      (∀ c ∈ chunks, c ≠ [] ∧ c.length = k * k ∧ ∀ f ∈ c, f.w = w0 ∧ f.h = h0) →
      ∃ grids splits,
        exceptMapM (fun c => image_grid c k k) chunks = .ok grids ∧
        exceptMapM (fun g => image_split g k k) grids = .ok splits ∧
        List.Forall₂ Image.eqv splits.flatten chunks.flatten := by
  intro chunks
  induction chunks with
  | nil => exact fun _ => ⟨[], [], rfl, rfl, List.Forall₂.nil⟩
  | cons c chunks ih =>
    intro hfacts
    obtain ⟨hne, hclen, hsz⟩ := hfacts c (List.mem_cons_self c chunks)
    obtain ⟨G, tiles, hG, hT, hTlen, hGw, hGh, heqv, _⟩ :=
      chunk_roundtrip c k w0 h0 hk hne (le_of_eq hclen) hsz
    obtain ⟨grids, splits, hgr, hsp, hfa⟩ :=
      ih (fun x hx => hfacts x (List.mem_cons_of_mem c hx))
    refine ⟨G :: grids, tiles :: splits, ?_, ?_, ?_⟩
    · simp [exceptMapM, hG, hgr]
    · simp [exceptMapM, hT, hsp]
    · rw [List.flatten_cons, List.flatten_cons]
      refine List.rel_append ?_ hfa
      refine List.forall₂_of_length_eq_of_get (by rw [hTlen, hclen]) ?_
      intro t h₁ h₂
      have ht : t < c.length := h₂
      have heq := heqv t ht
      rwa [List.getD_eq_get tiles (imageNew 0 0) h₁,
        List.getD_eq_get c (imageNew 0 0) h₂] at heq

/-- C3: for every video whose frame count is an exact multiple of
`grid_size²` (with frames of the video's common dimensions), unpacking
the grids produced by packing yields exactly the original frame
sequence, element for element and in the same order. -/
theorem grid_roundtrip (video : List Image) (k w0 h0 : ℕ) (hk : 0 < k)
    (hlen : video.length % k ^ 2 = 0) (hsz : ∀ f ∈ video, f.w = w0 ∧ f.h = h0) :
    ∃ grids frames, convert_frames_to_grids video k = .ok grids ∧
      grids_to_frames grids k = .ok frames ∧
      List.Forall₂ Image.eqv frames video := by
  have hk2 : 0 < k ^ 2 := by positivity
  have hkk : k ^ 2 = k * k := pow_two k
  have hfacts : ∀ c ∈ chunkList (k ^ 2) video,
      c ≠ [] ∧ c.length = k * k ∧ ∀ f ∈ c, f.w = w0 ∧ f.h = h0 := by
    intro c hc
    exact ⟨chunkList_ne_nil _ _ c hc,
      by rw [← hkk]; exact chunkList_length_dvd _ hk2 video hlen c hc,
      fun f hf => hsz f (chunkList_subset _ _ c hc f hf)⟩
  obtain ⟨grids, splits, hgr, hsp, hfa⟩ :=
    grids_chain k w0 h0 hk (chunkList (k ^ 2) video) hfacts
  refine ⟨grids, splits.flatten, hgr, ?_, ?_⟩
  · simp only [grids_to_frames, hsp]
  · rwa [chunkList_flatten] at hfa

/-- Witness for C3: four 1×1 black frames, `grid_size = 2`; the
round trip returns the frames. -/
theorem grid_roundtrip_witness :
    ((List.replicate 4 (imageNew 1 1)).length % 2 ^ 2 = 0 ∧
      ∀ f ∈ List.replicate 4 (imageNew 1 1), f.w = 1 ∧ f.h = 1) ∧
      ∃ grids frames,
        convert_frames_to_grids (List.replicate 4 (imageNew 1 1)) 2 = .ok grids ∧
        grids_to_frames grids 2 = .ok frames ∧
        List.Forall₂ Image.eqv frames (List.replicate 4 (imageNew 1 1)) :=
  ⟨⟨by decide, by decide⟩,
    grid_roundtrip (List.replicate 4 (imageNew 1 1)) 2 1 1
      (by decide) (by decide) (by decide)⟩

/-! ### C9: short final chunk, blank padding and exact output length -/

/-- C9: for every input video (not necessarily a multiple of
`grid_size²` frames), packing succeeds and produces full-sized
`k·w0 × k·h0` grids, the unfilled tiles of a short final chunk are
black, and the output assembly — unpack, truncate the padding frames,
reindex — returns exactly `len(video)` frames. -/
theorem rave_output_length_and_padding (video : List Image) (k w0 h0 n : ℕ)
    (indices : List ℕ) (d : Image) (hk : 0 < k) (hn : n = video.length)
    (hsz : ∀ f ∈ video, f.w = w0 ∧ f.h = h0) :
    ∃ grids, convert_frames_to_grids video k = .ok grids ∧
      (∀ g ∈ grids, g.w = k * w0 ∧ g.h = k * h0) ∧
      (∀ c ∈ chunkList (k ^ 2) video, ∃ G tiles,
        image_grid c k k = .ok G ∧ image_split G k k = .ok tiles ∧
        G.w = k * w0 ∧ G.h = k * h0 ∧
        ∀ t, c.length ≤ t → t < k * k → ∀ x y, x < w0 → y < h0 →
          (tiles.getD t (imageNew 0 0)).pix x y = 0) ∧
      ∃ out, assemble_output grids k n indices d = .ok out ∧ out.length = n := by
  have hkk : k ^ 2 = k * k := pow_two k
  have hfacts : ∀ c ∈ chunkList (k ^ 2) video,
      c ≠ [] ∧ c.length ≤ k * k ∧ ∀ f ∈ c, f.w = w0 ∧ f.h = h0 := by
    intro c hc
    refine ⟨chunkList_ne_nil _ _ c hc, ?_,
      fun f hf => hsz f (chunkList_subset _ _ c hc f hf)⟩
    rw [← hkk]
    exact chunkList_length_le _ (by positivity) video c hc
  have hchunks : ∀ c ∈ chunkList (k ^ 2) video, ∃ G tiles,
      image_grid c k k = .ok G ∧ image_split G k k = .ok tiles ∧
      G.w = k * w0 ∧ G.h = k * h0 ∧
      ∀ t, c.length ≤ t → t < k * k → ∀ x y, x < w0 → y < h0 →
        (tiles.getD t (imageNew 0 0)).pix x y = 0 := by
    intro c hc
    obtain ⟨hne, hle, hcsz⟩ := hfacts c hc
    obtain ⟨G, tiles, hG, hT, _, hGw, hGh, _, hblank⟩ :=
      chunk_roundtrip c k w0 h0 hk hne hle hcsz
    exact ⟨G, tiles, hG, hT, hGw, hGh, hblank⟩
  obtain ⟨grids, hgr, _⟩ := exceptMapM_ok_of_ok (fun c => image_grid c k k)
    (chunkList (k ^ 2) video)
    (fun c hc => by
      obtain ⟨G, tiles, hG, _⟩ := hchunks c hc
      exact ⟨G, hG⟩)
  have hdims : ∀ g ∈ grids, g.w = k * w0 ∧ g.h = k * h0 := by
    intro g hg
    obtain ⟨c, hc, hcg⟩ := exceptMapM_mem_right _ _ _ hgr g hg
    obtain ⟨G, tiles, hG, hT, hGw, hGh, _⟩ := hchunks c hc
    rw [hG, Except.ok.injEq] at hcg
    rw [← hcg]
    exact ⟨hGw, hGh⟩
  obtain ⟨splits, hsp, _⟩ := exceptMapM_ok_of_ok (fun g => image_split g k k) grids
    (fun g hg =>
      ⟨_, image_split_grid_ok g k w0 h0 hk (hdims g hg).1 (hdims g hg).2⟩)
  refine ⟨grids, hgr, hdims, hchunks, ?_⟩
  refine ⟨(List.range n).map fun i =>
    (splits.flatten.take n).getD (indices.getD i 0) d, ?_, ?_⟩
  · simp only [assemble_output, grids_to_frames, hsp]
  · simp

/-- Witness for C9: a video of 3 frames (not a multiple of 2² = 4),
`grid_size = 2`: packing succeeds, padding is black, and the output has
exactly 3 frames. -/
theorem rave_output_length_and_padding_witness :
    ((3 : ℕ) = (List.replicate 3 (imageNew 1 1)).length ∧
      ∀ f ∈ List.replicate 3 (imageNew 1 1), f.w = 1 ∧ f.h = 1) ∧
      ∃ grids, convert_frames_to_grids (List.replicate 3 (imageNew 1 1)) 2 = .ok grids ∧
        (∀ g ∈ grids, g.w = 2 * 1 ∧ g.h = 2 * 1) ∧
        (∀ c ∈ chunkList (2 ^ 2) (List.replicate 3 (imageNew 1 1)), ∃ G tiles,
          image_grid c 2 2 = .ok G ∧ image_split G 2 2 = .ok tiles ∧
          G.w = 2 * 1 ∧ G.h = 2 * 1 ∧
          ∀ t, c.length ≤ t → t < 2 * 2 → ∀ x y, x < 1 → y < 1 →
            (tiles.getD t (imageNew 0 0)).pix x y = 0) ∧
        ∃ out, assemble_output grids 2 3 [0, 1, 2] (imageNew 0 0) = .ok out ∧
          out.length = 3 :=
  ⟨⟨by decide, by decide⟩,
    rave_output_length_and_padding (List.replicate 3 (imageNew 1 1)) 2 1 1 3
      [0, 1, 2] (imageNew 0 0) (by decide) (by decide) (by decide)⟩

/-! ### C7: eager validation of control video lengths -/

theorem checkControlVideoLengths_error (video : List Image) :
    ∀ cvs : List (List Image), (∃ cv ∈ cvs, cv.length ≠ video.length) →
      ∃ e, checkControlVideoLengths video cvs = .error e := by
  intro cvs
  induction cvs with
  | nil => rintro ⟨cv, hmem, _⟩; cases hmem
  | cons cv rest ih =>
    rintro ⟨cv', hmem, hne⟩
    by_cases hc : video.length ≠ cv.length
    · exact ⟨"Expected length of video and control_video to be equal",
        by simp [checkControlVideoLengths, hc]⟩
    · push_neg at hc
      rcases List.mem_cons.mp hmem with rfl | hmem'
      · exact absurd hc.symm hne
      · obtain ⟨e, he⟩ := ih ⟨cv', hmem', hne⟩
        exact ⟨e, by simp [checkControlVideoLengths, hc, he]⟩

/-- C7: a call whose `control_video` contains a list of a length
different from the video's length fails `check_inputs` with a
`ValueError` before any model collaborator (denoiser, controlnet, text
encoder, autoencoder) is invoked: the result is an error and the trace
of model calls is empty, whatever the model-invoking remainder of the
call would have done. -/
theorem mismatched_control_video_errors (video : List Image)
    (control_video : List (List Image)) (grid_size w h : ℕ)
    (modelPhase : List Image → List (List Image) → List Image → List (List Image) →
      Except String (List Image) × List ModelCall)
    (hmm : ∃ cv ∈ control_video, cv.length ≠ video.length) :
    (∃ e, (rave_call_model video control_video grid_size w h modelPhase).1 = .error e) ∧
      (rave_call_model video control_video grid_size w h modelPhase).2 = [] := by
  simp only [rave_call_model]
  cases hconv : convert_frames_to_grids (video.map fun f => f.resize w h) grid_size with
  | error e => exact ⟨⟨e, rfl⟩, rfl⟩
  | ok grids =>
    cases hcg : exceptMapM (fun cv => convert_frames_to_grids cv grid_size)
        (control_video.map fun cv => cv.map fun f => f.resize w h) with
    | error e => exact ⟨⟨e, rfl⟩, rfl⟩
    | ok cgs =>
      obtain ⟨cv, hmem, hne⟩ := hmm
      obtain ⟨e, he⟩ := checkControlVideoLengths_error
        (video.map fun f => f.resize w h)
        (control_video.map fun cv => cv.map fun f => f.resize w h)
        ⟨cv.map fun f => f.resize w h, List.mem_map_of_mem _ hmem, by
          simpa using hne⟩
      rw [he]
      exact ⟨⟨e, rfl⟩, rfl⟩

/-- Witness for C7: a video of 8 frames with one control video of 5
frames errors out with an empty model-call trace, even though the
continuation would have invoked the denoiser. -/
theorem mismatched_control_video_errors_witness :
    (∃ cv ∈ [List.replicate 5 (imageNew 1 1)],
        cv.length ≠ (List.replicate 8 (imageNew 1 1)).length) ∧
      (∃ e, (rave_call_model (List.replicate 8 (imageNew 1 1))
          [List.replicate 5 (imageNew 1 1)] 2 1 1
          (fun _ _ _ _ => (.ok [], [ModelCall.unetModel]))).1 = .error e) ∧
      (rave_call_model (List.replicate 8 (imageNew 1 1))
          [List.replicate 5 (imageNew 1 1)] 2 1 1
          (fun _ _ _ _ => (.ok [], [ModelCall.unetModel]))).2 = [] :=
  ⟨⟨List.replicate 5 (imageNew 1 1), by simp, by simp⟩,
    mismatched_control_video_errors (List.replicate 8 (imageNew 1 1))
      [List.replicate 5 (imageNew 1 1)] 2 1 1
      (fun _ _ _ _ => (.ok [], [ModelCall.unetModel]))
      ⟨List.replicate 5 (imageNew 1 1), by simp, by simp⟩⟩

end Rave
